import Mathlib

/-!
Verification of the crossword CSP solver in
`src/3-optimization/crossword/generate.py` (class `CrosswordCreator`).

The solver's own code (node consistency, revise, AC-3, the consistency and
completeness predicates, the two heuristics, and the backtracking driver) is
embedded shallowly below, function by function.  The structural model that the
solver consumes (the `Crossword` object from `crossword.py`, which is not part
of the sources: variables, the vocabulary, the overlap table and the
`neighbors` function) is modelled from the specification.

Python sets are modelled as lists (iteration order of a Python set is
arbitrary; no claim below depends on it), Python dicts as insertion-ordered
association lists, and exceptions (`KeyError` from `del`, `ValueError` from
`min([])`) as an explicit error monad.  Recursion is driven by an explicit
fuel parameter; exhausting the fuel yields the distinguished error
`Err.fuel`, so no behaviour is fabricated for runs longer than the fuel.
-/

/-- A word is a Python string, viewed as its list of characters. -/
abbrev Word := List Char

/-- Indexing `w[i]` into a Python string; total with a junk default, under the spec's
guarantee that overlap indices are always in range. -/
def charAt (w : Word) (i : Nat) : Char := w.getD i ' '

/-- Length of a word. -/
def wordLen (w : Word) : Nat := List.length w

/-- Modelled from the spec (crossword.py is not in the sources): a slot of the
grid with starting cell, orientation and length; equality is structural on all
four fields. -/
structure Variable where
  row : Nat
  col : Nat
  down : Bool
  length : Nat
deriving DecidableEq, Repr

/-- Modelled from the spec (crossword.py is not in the sources): the external
structural model, with the variable set, the vocabulary and the precomputed
overlap table. -/
structure Crossword where
  vars : List Variable
  words : List Word
  overlaps : Variable → Variable → Option (Nat × Nat)

/-- Modelled from the spec: `neighbors(var)` is the set of other variables
with a defined overlap. -/
def neighbors (cw : Crossword) (v : Variable) : List Variable :=
  cw.vars.filter (fun u => !(u == v) && (cw.overlaps v u).isSome)

/-- The overlap table is symmetric (spec: it maps an unordered pair of
distinct variables to the shared cell's pair of offsets). -/
def OverlapSym (cw : Crossword) : Prop :=
  ∀ x y i j, cw.overlaps x y = some (i, j) → cw.overlaps y x = some (j, i)

/-- The store `self.domains`: the per-variable candidate sets, as an association list
keyed by variable (every variable is given an entry at initialization). -/
abbrev Domains := List (Variable × List Word)

/-- Reading `self.domains[v]`; total, the empty list for an absent key. -/
def domGet : Domains → Variable → List Word
  | [], _ => []
  | (k, l) :: rest, v => if k = v then l else domGet rest v

/-- Writing `self.domains[v] = l`: replace the entry in place, append a new
entry if the key is absent, as a Python dict does. -/
def domSet : Domains → Variable → List Word → Domains
  | [], v, l => [(v, l)]
  | (k, l0) :: rest, v, l => if k = v then (k, l) :: rest else (k, l0) :: domSet rest v l

/-- Initialization in `__init__`: one domain per variable, the full vocabulary. -/
def initDomains (cw : Crossword) : Domains :=
  cw.vars.map (fun v => (v, cw.words))

/-- A (partial) assignment: a Python dict from variables to words, modelled as
an insertion-ordered association list. -/
abbrev Assignment := List (Variable × Word)

/-- Membership test `var in assignment`. -/
def hasKey (a : Assignment) (v : Variable) : Bool :=
  a.any (fun p => p.1 == v)

/-- Binding `assignment[var] = value`: overwrite in place, else append (a Python dict
keeps insertion order). -/
def insertA : Assignment → Variable → Word → Assignment
  | [], v, w => [(v, w)]
  | (k, w0) :: rest, v, w =>
      if k = v then (k, w) :: rest else (k, w0) :: insertA rest v w

/-- Deletion `del assignment[var]`: `none` models the `KeyError` raised on an absent
key. -/
def eraseA (a : Assignment) (v : Variable) : Option Assignment :=
  if hasKey a v then some (a.filter (fun p => !(p.1 == v))) else none

/-- The Python exceptions the solver can raise, plus fuel exhaustion of the
model ('Err.fuel' is an artefact of the embedding, not a behaviour of the
code). -/
inductive Err where
  | keyError
  | valueError
  | fuel
deriving DecidableEq, Repr

/-- Method `enforce_node_consistency`: for each variable keep only the words of the
variable's length (`var.length == len(value)`). -/
def enforceNC (cw : Crossword) (d : Domains) : Domains :=
  cw.vars.foldl
    (fun acc var =>
      domSet acc var ((domGet acc var).filter (fun w => var.length == wordLen w)))
    d

/-- Method `revise(x, y)`: with no overlap report no change; otherwise keep exactly
the words of `x`'s domain that agree with some word of `y`'s domain at the
overlap offsets, and report whether anything was dropped. -/
def reviseD (cw : Crossword) (d : Domains) (x y : Variable) : Bool × Domains :=
  match cw.overlaps x y with
  | none => (false, d)
  | some (i, j) =>
      let keep := (domGet d x).filter
        (fun wx => (domGet d y).any (fun wy => charAt wx i == charAt wy j))
      let changed := (domGet d x).any
        (fun wx => !((domGet d y).any (fun wy => charAt wx i == charAt wy j)))
      (changed, domSet d x keep)

/-- The worklist loop of `ac3`: pop the first arc, revise, fail on an emptied
domain, otherwise enqueue `(neighbor, x)` for the neighbors of `x` other than
`y` not already pending. -/
def ac3run (cw : Crossword) : Nat → Domains → List (Variable × Variable) →
    Except Err (Bool × Domains)
  | 0, _, _ => .error .fuel
  | _ + 1, d, [] => .ok (true, d)
  | f + 1, d, (x, y) :: rest =>
      let r := reviseD cw d x y
      if r.1 then
        if (domGet r.2 x).length == 0 then .ok (false, r.2)
        else
          ac3run cw f r.2
            ((neighbors cw x).foldl
              (fun acc z => if !(z == y) && !(acc.contains (z, x)) then acc ++ [(z, x)] else acc)
              rest)
      else ac3run cw f r.2 rest

/-- The default initial worklist of `ac3`: all ordered pairs of distinct
variables. -/
def allArcs (cw : Crossword) : List (Variable × Variable) :=
  cw.vars.flatMap (fun x => (cw.vars.filter (fun y => !(y == x))).map (fun y => (x, y)))

/-- Method `assignment_complete`. -/
def assignmentComplete (cw : Crossword) (a : Assignment) : Bool :=
  cw.vars.all (fun v => hasKey a v)

/-- Method `consistent`: all bound words distinct, each of its variable's length, and
agreeing at every defined overlap. -/
def consistentA (cw : Crossword) (a : Assignment) : Bool :=
  (a.length == (a.map Prod.snd).dedup.length) &&
  a.all (fun px =>
    (px.1.length == wordLen px.2) &&
    a.all (fun py =>
      if px.1 == py.1 then true
      else
        match cw.overlaps px.1 py.1 with
        | none => true
        | some (i, j) => charAt px.2 i == charAt py.2 j))

/-- The elimination counter of `order_domain_values` for one candidate value:
over each unassigned neighbor, 1 if the value itself is in the neighbor's
domain, plus 1 for every other word there disagreeing at the overlap. -/
def elimCount (cw : Crossword) (d : Domains) (var : Variable) (a : Assignment)
    (value : Word) : Nat :=
  ((neighbors cw var).filter (fun n => !(hasKey a n))).foldl
    (fun acc n =>
      let acc1 := if (domGet d n).contains value then acc + 1 else acc
      ((domGet d n).filter (fun u => !(u == value))).foldl
        (fun acc2 u =>
          match cw.overlaps var n with
          | none => acc2
          | some (i, jn) => if charAt value i == charAt u jn then acc2 else acc2 + 1)
        acc1)
    0

/-- Python tuple comparison `(count, word) < (count, word)` (strings compare
lexicographically by character). -/
def wordLtB : Word → Word → Bool
  | _, [] => false
  | [], _ :: _ => true
  | a :: as_, b :: bs => if a < b then true else if b < a then false else wordLtB as_ bs

/-- Lexicographic `<` on `(counter, word)` pairs, as Python compares them. -/
def pairLtB (p q : Nat × Word) : Bool :=
  if p.1 < q.1 then true else if q.1 < p.1 then false else wordLtB p.2 q.2

/-- Stable insertion of one element into a sorted-descending list; `sortRev`
below is then extensionally Python's stable `sorted(..., reverse=True)`. -/
def insDesc (x : Nat × Word) : List (Nat × Word) → List (Nat × Word)
  | [] => [x]
  | y :: ys => if !(pairLtB x y) then x :: y :: ys else y :: insDesc x ys

/-- Python's `sorted(pairs, reverse=True)`: stable descending sort. -/
def sortRev : List (Nat × Word) → List (Nat × Word)
  | [] => []
  | x :: xs => insDesc x (sortRev xs)

/-- Method `order_domain_values`: zip the counters with the candidates, sort the
pairs descending (the code's `reverse=True`), return the words. -/
def orderDomainValues (cw : Crossword) (d : Domains) (var : Variable)
    (a : Assignment) : List Word :=
  let domains := domGet d var
  let counters := domains.map (elimCount cw d var a)
  (sortRev (counters.zip domains)).map Prod.snd

/-- Method `select_unassigned_variable`: fewest remaining values, ties by most
neighbors, first of the remaining ties; `none` when every variable is
assigned (Python would raise `ValueError` on `min([])`). -/
def selectUnassigned (cw : Crossword) (d : Domains) (a : Assignment) :
    Option Variable :=
  let unassigned := cw.vars.filter (fun v => !(hasKey a v))
  match unassigned with
  | [] => none
  | u :: us =>
      let lst := u :: us
      let m := ((lst.map (fun v => (domGet d v).length)).min?).getD 0
      let selected := lst.filter (fun v => (domGet d v).length == m)
      let selected2 :=
        if selected.length == 1 then selected
        else
          let mx := ((selected.map (fun v => (neighbors cw v).length)).max?).getD 0
          selected.filter (fun v => (neighbors cw v).length == mx)
      selected2.head?

/-- The arc list `[(neighbor, assigned_var) for assigned_var in assignment for
neighbor in self.crossword.neighbors(assigned_var)]` built in `backtrack`. -/
def buildArcs (cw : Crossword) (a : Assignment) : List (Variable × Variable) :=
  a.flatMap (fun p => (neighbors cw p.1).map (fun nb => (nb, p.1)))

/-- Outcome of one run of `backtrack`'s `for value in ...` loop: a solution
bubbling up, or exhaustion with the current domains and assignment. -/
inductive LoopRes where
  | found (res : Assignment) (d : Domains) (a : Assignment)
  | exhausted (d : Domains) (a : Assignment)

/-- The body of `backtrack`'s loop over the ordered candidate values, with the
recursive call abstracted as `bt`.  A binding that fails `consistent` is kept
(the next iteration overwrites it, the code never deletes it here); on a
consistent binding the domain of `var` is narrowed to the single value, the
arcs of all assigned variables are re-propagated and — the return value of
`ac3` being discarded by the code — the search always recurses; when the
recursion fails the snapshot `d` is restored and the next value is tried. -/
def backtrackLoop (cw : Crossword)
    (bt : Domains → Assignment → Except Err (Option Assignment × Domains × Assignment))
    (g : Nat) (d : Domains) (a : Assignment) (var : Variable) :
    List Word → Except Err LoopRes
  | [] => .ok (.exhausted d a)
  | value :: rest =>
      let a1 := insertA a var value
      if consistentA cw a1 then
        match ac3run cw g (domSet d var [value]) (buildArcs cw a1) with
        | .error e => .error e
        | .ok (_, d2) =>
            match bt d2 a1 with
            | .error e => .error e
            | .ok (some res, d3, a3) => .ok (.found res d3 a3)
            | .ok (none, _, a3) => backtrackLoop cw bt g d a3 var rest
      else backtrackLoop cw bt g d (insertA a var value) var rest

/-- Method `backtrack`: completeness check, variable selection, the value loop, and
the final `del assignment[var]` (which raises `KeyError` when `var` is
unbound) before reporting failure.  The first `Nat` is recursion fuel, the
second the fuel handed to every inner `ac3` run. -/
def backtrackModel (cw : Crossword) : Nat → Nat → Domains → Assignment →
    Except Err (Option Assignment × Domains × Assignment)
  | 0, _, _, _ => .error .fuel
  | f + 1, g, d, a =>
      if assignmentComplete cw a then .ok (some a, d, a)
      else
        match selectUnassigned cw d a with
        | none => .error .valueError
        | some var =>
            match backtrackLoop cw (backtrackModel cw f g) g d a var
                (orderDomainValues cw d var a) with
            | .error e => .error e
            | .ok (.found res d1 a1) => .ok (some res, d1, a1)
            | .ok (.exhausted d1 a1) =>
                match eraseA a1 var with
                | none => .error .keyError
                | some a2 => .ok (none, d1, a2)

/-- Method `solve`: node consistency, one full `ac3` (its boolean discarded, as in
the code), then backtracking from the empty assignment. -/
def solveModel (f g : Nat) (cw : Crossword) :
    Except Err (Option Assignment × Domains × Assignment) :=
  match ac3run cw g (enforceNC cw (initDomains cw)) (allArcs cw) with
  | .error e => .error e
  | .ok (_, d2) => backtrackModel cw f g d2 []

/-- Arc consistency of `x` with respect to `y` under a domain store. -/
def arcConsistent (cw : Crossword) (d : Domains) (x y : Variable) : Prop :=
  ∀ i j, cw.overlaps x y = some (i, j) →
    ∀ wx ∈ domGet d x, ∃ wy ∈ domGet d y, charAt wx i = charAt wy j

/-- The AC-3 worklist invariant: every ordered pair of distinct variables is
either still pending or already arc-consistent. -/
def AcInv (cw : Crossword) (d : Domains) (arcs : List (Variable × Variable)) : Prop :=
  ∀ x ∈ cw.vars, ∀ y ∈ cw.vars, x ≠ y → (x, y) ∈ arcs ∨ arcConsistent cw d x y

/-! ## Concrete instances used as witnesses and counterexamples -/

/-- The word "ab". -/
def wAB : Word := "ab".toList

/-- The word "cd". -/
def wCD : Word := "cd".toList

/-- The word "ax". -/
def wAX : Word := "ax".toList

/-- The word "bx". -/
def wBX : Word := "bx".toList

/-- The word "bc". -/
def wBC : Word := "bc".toList

/-- A length-2 slot at the origin. -/
def vX : Variable := ⟨0, 0, false, 2⟩

/-- A second length-2 slot. -/
def vY : Variable := ⟨1, 0, false, 2⟩

/-- A length-3 slot. -/
def vX3 : Variable := ⟨0, 0, false, 3⟩

/-- An overlap table letting `vX` and `vY` share their first letters. -/
def ovXY : Variable → Variable → Option (Nat × Nat) := fun u v =>
  if u = vX ∧ v = vY then some (0, 0)
  else if u = vY ∧ v = vX then some (0, 0)
  else none

/-- One isolated length-2 slot and a fitting vocabulary: `solve` succeeds. -/
def cwA : Crossword := ⟨[vX], [wAB], fun _ _ => none⟩

/-- The complete assignment `solve` finds on `cwA`. -/
def asgA : Assignment := [(vX, wAB)]

/-- The domain store `solve` ends with on `cwA`. -/
def domA : Domains := [(vX, [wAB])]

/-- One length-3 slot but only a length-2 word: node consistency empties the
domain (the spec's no-solution scenario). -/
def cwB : Crossword := ⟨[vX3], [wAB], fun _ _ => none⟩

/-- A domain store whose only domain is already empty. -/
def domB : Domains := [(vX3, [])]

/-- Overlapping slots `vX`, `vY` with a vocabulary that separates the
elimination counts of `vX`'s two candidates. -/
def cwC : Crossword := ⟨[vX, vY], [wAB, wCD, wAX, wBX], ovXY⟩

/-- Domains for `cwC`: `vX` has candidates "ab" (count 1) and "cd" (count 2). -/
def domC : Domains := [(vX, [wAB, wCD]), (vY, [wAX, wBX])]

/-- Overlapping slots with incompatible singleton domains: the in-branch
`ac3` run empties `vY`'s domain. -/
def cwD : Crossword := ⟨[vX, vY], [wAB, wBC], ovXY⟩

/-- Domains for `cwD`. -/
def domD : Domains := [(vX, [wAB]), (vY, [wBC])]

/-- The domain store after the failed propagation on `cwD`'s only branch. -/
def domD2 : Domains := [(vX, [wAB]), (vY, [])]

/-- Two non-overlapping slots, one with an already-empty domain: the default
`ac3` run returns true without noticing the empty domain. -/
def cwE : Crossword := ⟨[vX, vY], [wAB], fun _ _ => none⟩

/-- Domains for `cwE`: `vX`'s domain is empty before `ac3` starts. -/
def domE : Domains := [(vX, []), (vY, [wAB])]

/-- Overlapping slots both restricted to the single word "ab": the search must
fail (global uniqueness) and return the no-solution value. -/
def cwH : Crossword := ⟨[vX, vY], [wAB], ovXY⟩

/-- Domains for `cwH`. -/
def domH : Domains := [(vX, [wAB]), (vY, [wAB])]

/-- A ghost slot that is present in the domain store but not among the
crossword's variables. -/
def vG1 : Variable := ⟨5, 5, false, 2⟩

/-- A second ghost slot. -/
def vG2 : Variable := ⟨6, 6, false, 2⟩

/-- An overlap table joining `vX` with `vY` and the two ghost slots with each
other, symmetric everywhere. -/
def ovW : Variable → Variable → Option (Nat × Nat) := fun u v =>
  if u = vX ∧ v = vY then some (0, 0)
  else if u = vY ∧ v = vX then some (0, 0)
  else if u = vG1 ∧ v = vG2 then some (0, 0)
  else if u = vG2 ∧ v = vG1 then some (0, 0)
  else none

/-- A crossword on which the default `ac3` run succeeds while a `revise` on
the ghost pair empties a domain. -/
def cwW : Crossword := ⟨[vX, vY], [wAB, wBC], ovW⟩

/-- Domains for `cwW`, with entries for the ghost slots. -/
def domW : Domains := [(vX, [wAB]), (vY, [wAB]), (vG1, [wAB]), (vG2, [wBC])]

/-! ## Basic lemmas about the store and assignment operations -/

/-- Reading after writing in the domain store. -/
theorem domGet_domSet (d : Domains) (x : Variable) (l : List Word) (v : Variable) :
    domGet (domSet d x l) v = if v = x then l else domGet d v := by
  induction d with
  | nil =>
      by_cases h : v = x
      · subst h; simp [domSet, domGet]
      · simp only [domSet, domGet, if_neg (fun hh : x = v => h hh.symm), if_neg h]
  | cons p rest ih =>
      obtain ⟨k, l0⟩ := p
      by_cases hk : k = x
      · subst hk
        by_cases h : k = v
        · subst h; simp [domSet, domGet]
        · simp only [domSet, domGet, if_pos rfl, if_neg h,
            if_neg (fun hh : v = k => h hh.symm)]
      · by_cases h : k = v
        · subst h
          simp [domSet, domGet, hk]
        · simp only [domSet, domGet, if_neg hk, if_neg h, ih]

/-- Writing does not disturb the other variables' domains. -/
theorem domGet_domSet_ne (d : Domains) (x : Variable) (l : List Word)
    (v : Variable) (hv : v ≠ x) : domGet (domSet d x l) v = domGet d v := by
  simp [domGet_domSet, hv]

/-- Reading back the written domain. -/
theorem domGet_domSet_self (d : Domains) (x : Variable) (l : List Word) :
    domGet (domSet d x l) x = l := by
  simp [domGet_domSet]

/-- Unfolding the absence of a key. -/
theorem hasKey_false_iff (a : Assignment) (v : Variable) :
    hasKey a v = false ↔ ∀ p ∈ a, p.1 ≠ v := by
  simp [hasKey]

/-- Binding a fresh variable appends the pair at the end, as a Python dict
does. -/
theorem insertA_of_not_key (a : Assignment) (v : Variable) (w : Word)
    (h : hasKey a v = false) : insertA a v w = a ++ [(v, w)] := by
  induction a with
  | nil => simp [insertA]
  | cons p rest ih =>
      simp only [hasKey, List.any_cons, Bool.or_eq_false_iff] at h
      have h1 : p.1 ≠ v := by simpa using h.1
      obtain ⟨k, w0⟩ := p
      simp only [insertA, if_neg (by simpa using h1)]
      simp [ih (by simp [hasKey, h.2])]

/-- Rebinding the variable that was bound last overwrites its word in
place. -/
theorem insertA_last (a : Assignment) (v : Variable) (u w : Word)
    (h : hasKey a v = false) : insertA (a ++ [(v, u)]) v w = a ++ [(v, w)] := by
  induction a with
  | nil => simp [insertA]
  | cons p rest ih =>
      simp only [hasKey, List.any_cons, Bool.or_eq_false_iff] at h
      have h1 : p.1 ≠ v := by simpa using h.1
      obtain ⟨k, w0⟩ := p
      simp only [List.cons_append, insertA, if_neg (by simpa using h1)]
      simp [ih (by simp [hasKey, h.2])]

/-- Deleting the variable that was bound last restores the previous
assignment. -/
theorem eraseA_last (a : Assignment) (v : Variable) (w : Word)
    (h : hasKey a v = false) : eraseA (a ++ [(v, w)]) v = some a := by
  have hk : hasKey (a ++ [(v, w)]) v = true := by
    simp [hasKey, List.any_append]
  have hfilter : (a ++ [(v, w)]).filter (fun p => !(p.1 == v)) = a := by
    rw [List.filter_append]
    have h1 : a.filter (fun p => !(p.1 == v)) = a := by
      rw [List.filter_eq_self]
      intro p hp
      have := (hasKey_false_iff a v).1 h p hp
      simpa using this
    simp [h1]
  simp [eraseA, hk, hfilter]

/-- Deleting an unbound variable raises `KeyError`. -/
theorem eraseA_none (a : Assignment) (v : Variable) (h : hasKey a v = false) :
    eraseA a v = none := by
  simp [eraseA, h]

/-! ## The sort used by `order_domain_values` permutes its input -/

/-- Stable descending insertion is a permutation. -/
theorem insDesc_perm (x : Nat × Word) (l : List (Nat × Word)) :
    (insDesc x l).Perm (x :: l) := by
  induction l with
  | nil => simp [insDesc]
  | cons y ys ih =>
      unfold insDesc
      split
      · exact .refl _
      · exact (ih.cons y).trans (List.Perm.swap x y ys)

/-- Stable descending sort is a permutation. -/
theorem sortRev_perm (l : List (Nat × Word)) : (sortRev l).Perm l := by
  induction l with
  | nil => simp [sortRev]
  | cons x xs ih => exact (insDesc_perm x (sortRev xs)).trans (ih.cons x)

/-! ## Lemmas about `revise` -/

/-- When `revise` changes nothing the store is pointwise unchanged. -/
theorem reviseD_unchanged (cw : Crossword) (d : Domains) (x y : Variable)
    (h : (reviseD cw d x y).1 = false) (v : Variable) :
    domGet (reviseD cw d x y).2 v = domGet d v := by
  unfold reviseD at *
  cases hov : cw.overlaps x y with
  | none => simp [hov]
  | some p =>
      obtain ⟨i, j⟩ := p
      simp only [hov] at h ⊢
      by_cases hv : v = x
      · subst hv
        rw [domGet_domSet_self]
        rw [List.filter_eq_self]
        intro wx hwx
        by_contra hno
        have : (domGet d v).any
            (fun wx => !((domGet d y).any (fun wy => charAt wx i == charAt wy j))) = true := by
          rw [List.any_eq_true]
          exact ⟨wx, hwx, by simpa using hno⟩
        simp [this] at h
      · exact domGet_domSet_ne _ _ _ _ hv

/-- The revised domain of `x` is a sub-collection of the old one; all other
domains are untouched. -/
theorem reviseD_subset (cw : Crossword) (d : Domains) (x y : Variable)
    (v : Variable) : domGet (reviseD cw d x y).2 v ⊆ domGet d v := by
  unfold reviseD
  cases hov : cw.overlaps x y with
  | none => simp
  | some p =>
      obtain ⟨i, j⟩ := p
      simp only
      by_cases hv : v = x
      · subst hv
        rw [domGet_domSet_self]
        intro w hw
        exact (List.mem_filter.1 hw).1
      · rw [domGet_domSet_ne _ _ _ _ hv]
        exact fun w hw => hw

/-- Every word surviving `revise(x, y)` has a support in `y`'s old domain. -/
theorem reviseD_support (cw : Crossword) (d : Domains) (x y : Variable)
    (i j : Nat) (hov : cw.overlaps x y = some (i, j)) (wx : Word)
    (hwx : wx ∈ domGet (reviseD cw d x y).2 x) :
    ∃ wy ∈ domGet d y, charAt wx i = charAt wy j := by
  unfold reviseD at hwx
  rw [hov] at hwx
  simp only [domGet_domSet_self] at hwx
  have := (List.mem_filter.1 hwx).2
  rw [List.any_eq_true] at this
  obtain ⟨wy, hwy, hagree⟩ := this
  exact ⟨wy, hwy, by simpa using hagree⟩

/-- When `revise` reports no change and an overlap exists, every word of `x`'s
domain already had a support in `y`'s domain. -/
theorem reviseD_false_supported (cw : Crossword) (d : Domains) (x y : Variable)
    (i j : Nat) (hov : cw.overlaps x y = some (i, j))
    (h : (reviseD cw d x y).1 = false) (wx : Word) (hwx : wx ∈ domGet d x) :
    ∃ wy ∈ domGet d y, charAt wx i = charAt wy j := by
  unfold reviseD at h
  rw [hov] at h
  simp only at h
  by_contra hno
  push_neg at hno
  have : (domGet d x).any
      (fun wx => !((domGet d y).any (fun wy => charAt wx i == charAt wy j))) = true := by
    rw [List.any_eq_true]
    refine ⟨wx, hwx, ?_⟩
    simp only [Bool.not_eq_true', List.any_eq_false]
    intro wy hwy
    simpa using fun hagree => hno wy hwy hagree
  simp [this] at h

/-- Frame property of `revise`: only `x`'s domain can change, and without an
overlap nothing at all happens. -/
theorem reviseD_frame (cw : Crossword) (d : Domains) (x y : Variable) :
    (∀ v, v ≠ x → domGet (reviseD cw d x y).2 v = domGet d v)
    ∧ (cw.overlaps x y = none → reviseD cw d x y = (false, d)) := by
  constructor
  · intro v hv
    unfold reviseD
    cases hov : cw.overlaps x y with
    | none => simp
    | some p =>
        obtain ⟨i, j⟩ := p
        simpa using domGet_domSet_ne d x _ v hv
  · intro h
    simp [reviseD, h]

/-- C8: `revise(x, y)` mutates at most `x`'s domain — the domains of all
variables other than `x`, in particular `y`'s, are read but never written —
and when the overlap table records no overlap for `(x, y)` it reports false
and leaves the whole store untouched, `x`'s domain included. -/
theorem revise_frame (cw : Crossword) (d : Domains) (x y : Variable) :
    (∀ v, v ≠ x → domGet (reviseD cw d x y).2 v = domGet d v)
    ∧ (cw.overlaps x y = none → reviseD cw d x y = (false, d)) :=
  reviseD_frame cw d x y

/-- Witness for C8 on a concrete store: `revise(vX, vY)` under the
overlap-free crossword `cwE` leaves `vY`'s domain alone, reports false and
leaves the store untouched. -/
theorem revise_frame_witness :
    domGet (reviseD cwE domE vX vY).2 vY = domGet domE vY
    ∧ reviseD cwE domE vX vY = (false, domE) :=
  ⟨(revise_frame cwE domE vX vY).1 vY (by decide),
   (revise_frame cwE domE vX vY).2 rfl⟩

/-- C10: `order_domain_values` returns a permutation of the variable's
current domain — every candidate exactly as often as it is in the domain,
nothing added, nothing dropped. -/
theorem orderDomainValues_perm (cw : Crossword) (d : Domains) (var : Variable)
    (a : Assignment) : (orderDomainValues cw d var a).Perm (domGet d var) := by
  unfold orderDomainValues
  have hlen : (domGet d var).length ≤
      ((domGet d var).map (elimCount cw d var a)).length := by
    rw [List.length_map]
  have hperm := (sortRev_perm
    (((domGet d var).map (elimCount cw d var a)).zip (domGet d var))).map Prod.snd
  rwa [List.map_snd_zip _ _ hlen] at hperm

/-! ## Lemmas about `ac3` -/

/-- Elements already pending stay pending through the re-enqueue fold. -/
theorem foldl_enqueue_mem (x0 y0 : Variable) :
    ∀ (l : List Variable) (acc : List (Variable × Variable))
      (e : Variable × Variable), e ∈ acc →
      e ∈ l.foldl
        (fun acc z => if !(z == y0) && !(acc.contains (z, x0)) then acc ++ [(z, x0)] else acc)
        acc := by
  intro l
  induction l with
  | nil => intro acc e he; simpa using he
  | cons u l ih =>
      intro acc e he
      simp only [List.foldl_cons]
      by_cases hc : (!(u == y0) && !(acc.contains (u, x0))) = true
      · rw [if_pos hc]
        exact ih _ e (by simp [he])
      · rw [if_neg hc]
        exact ih _ e he

/-- Every neighbor other than `y0` ends up pending after the re-enqueue
fold. -/
theorem foldl_enqueue_mem_new (x0 y0 : Variable) :
    ∀ (l : List Variable) (acc : List (Variable × Variable)) (z : Variable),
      z ∈ l → z ≠ y0 →
      (z, x0) ∈ l.foldl
        (fun acc z => if !(z == y0) && !(acc.contains (z, x0)) then acc ++ [(z, x0)] else acc)
        acc := by
  intro l
  induction l with
  | nil => intro acc z hz; simp at hz
  | cons u l ih =>
      intro acc z hz hne
      simp only [List.foldl_cons]
      rcases List.mem_cons.1 hz with hzu | hzl
      · subst hzu
        by_cases hc : (!(z == y0) && !(acc.contains (z, x0))) = true
        · rw [if_pos hc]
          exact foldl_enqueue_mem x0 y0 l _ _ (by simp)
        · rw [if_neg hc]
          simp only [Bool.and_eq_true, Bool.not_eq_true', not_and_or,
            Bool.not_eq_false] at hc
          rcases hc with hc | hc
          · exact absurd (by simpa using hc) hne
          · exact foldl_enqueue_mem x0 y0 l _ _ (by simpa using hc)
      · exact ih _ z hzl hne

/-- Any store an `ac3` run returns is a pointwise sub-collection of the store
it started from: AC-3 only ever deletes words. -/
theorem ac3run_subset (cw : Crossword) :
    ∀ (f : Nat) (d : Domains) (arcs : List (Variable × Variable)) (b : Bool)
      (d' : Domains), ac3run cw f d arcs = .ok (b, d') →
      ∀ v, domGet d' v ⊆ domGet d v := by
  intro f
  induction f with
  | zero => intro d arcs b d' h; simp [ac3run] at h
  | succ f ih =>
      intro d arcs b d' h v
      match arcs with
      | [] =>
          simp only [ac3run, Except.ok.injEq, Prod.mk.injEq] at h
          rw [← h.2]
          exact fun w hw => hw
      | (x, y) :: rest =>
          simp only [ac3run] at h
          split at h
          · split at h
            · simp only [Except.ok.injEq, Prod.mk.injEq] at h
              rw [← h.2]
              exact reviseD_subset cw d x y v
            · exact fun w hw => reviseD_subset cw d x y v (ih _ _ _ _ h v hw)
          · exact fun w hw => reviseD_subset cw d x y v (ih _ _ _ _ h v hw)

/-- When an `ac3` run returns true, no domain was emptied by the run: a domain
empty afterwards was already empty beforehand. -/
theorem ac3run_true_no_new_empty (cw : Crossword) :
    ∀ (f : Nat) (d : Domains) (arcs : List (Variable × Variable)) (d' : Domains),
      ac3run cw f d arcs = .ok (true, d') →
      ∀ v, domGet d' v = [] → domGet d v = [] := by
  intro f
  induction f with
  | zero => intro d arcs d' h; simp [ac3run] at h
  | succ f ih =>
      intro d arcs d' h v hv
      match arcs with
      | [] =>
          simp only [ac3run, Except.ok.injEq, Prod.mk.injEq] at h
          rw [h.2]
          exact hv
      | (x, y) :: rest =>
          simp only [ac3run] at h
          split at h
          · rename_i hchanged
            split at h
            · simp at h
            · rename_i hlen
              have h2 := ih _ _ _ h v hv
              by_cases hvx : v = x
              · subst hvx
                rw [h2] at hlen
                simp at hlen
              · rw [← (reviseD_frame cw d x y).1 v hvx]
                exact h2
          · rename_i hchanged
            have h2 := ih _ _ _ h v hv
            rw [← reviseD_unchanged cw d x y (by simpa using hchanged) v]
            exact h2

/-- The node-consistency fold only ever shrinks each domain. -/
theorem foldl_nc_subset :
    ∀ (l : List Variable) (acc : Domains) (v : Variable),
      domGet (l.foldl
        (fun acc var =>
          domSet acc var ((domGet acc var).filter (fun w => var.length == wordLen w)))
        acc) v ⊆ domGet acc v := by
  intro l
  induction l with
  | nil => intro acc v w hw; simpa using hw
  | cons u l ih =>
      intro acc v
      simp only [List.foldl_cons]
      intro w hw
      have h1 := ih _ v hw
      by_cases hv : v = u
      · subst hv
        rw [domGet_domSet_self] at h1
        exact (List.mem_filter.1 h1).1
      · rwa [domGet_domSet_ne _ _ _ _ hv] at h1

/-- C9: every domain-mutating operation of the core — `enforce_node_consistency`,
`revise`, and any `ac3` run (that includes the narrowed re-propagations
`backtrack` performs, which call the same `ac3`) — leaves each variable's
domain a sub-collection of what it was before; words deleted from a domain
are never re-added by these operations (only `backtrack`'s explicit snapshot
restore, which reinstates a previous store wholesale, can bring them back). -/
theorem domains_only_shrink (cw : Crossword) (d : Domains) (x y : Variable)
    (g : Nat) (arcs : List (Variable × Variable)) (b : Bool) (d' : Domains)
    (v : Variable) :
    domGet (enforceNC cw d) v ⊆ domGet d v
    ∧ domGet (reviseD cw d x y).2 v ⊆ domGet d v
    ∧ (ac3run cw g d arcs = .ok (b, d') → domGet d' v ⊆ domGet d v) :=
  ⟨foldl_nc_subset cw.vars d v,
   reviseD_subset cw d x y v,
   fun h => ac3run_subset cw g d arcs b d' h v⟩

/-- Witness for C9 at a concrete store: the `ac3` hypothesis is discharged by
computation on `cwE`. -/
theorem domains_only_shrink_witness :
    domGet (enforceNC cwE domE) vX ⊆ domGet domE vX
    ∧ domGet (reviseD cwE domE vX vY).2 vX ⊆ domGet domE vX
    ∧ domGet domE vX ⊆ domGet domE vX :=
  ⟨(domains_only_shrink cwE domE vX vY 9 (allArcs cwE) true domE vX).1,
   (domains_only_shrink cwE domE vX vY 9 (allArcs cwE) true domE vX).2.1,
   (domains_only_shrink cwE domE vX vY 9 (allArcs cwE) true domE vX).2.2 rfl⟩

/-- Arc consistency only depends on the store pointwise. -/
theorem arcConsistent_congr (cw : Crossword) (d1 d2 : Domains)
    (h : ∀ v, domGet d1 v = domGet d2 v) (x y : Variable)
    (hac : arcConsistent cw d1 x y) : arcConsistent cw d2 x y := by
  intro i j hov wx hwx
  rw [← h x] at hwx
  obtain ⟨wy, hwy, hagree⟩ := hac i j hov wx hwx
  exact ⟨wy, by rw [← h y]; exact hwy, hagree⟩

/-- Words with a support survive `revise`. -/
theorem reviseD_keep (cw : Crossword) (d : Domains) (x y : Variable)
    (i j : Nat) (hov : cw.overlaps x y = some (i, j)) (wx : Word)
    (h1 : wx ∈ domGet d x) (h2 : ∃ wy ∈ domGet d y, charAt wx i = charAt wy j) :
    wx ∈ domGet (reviseD cw d x y).2 x := by
  unfold reviseD
  rw [hov]
  simp only [domGet_domSet_self]
  refine List.mem_filter.2 ⟨h1, ?_⟩
  rw [List.any_eq_true]
  obtain ⟨wy, hwy, hagree⟩ := h2
  exact ⟨wy, hwy, by simpa using hagree⟩

/-- The initial worklist contains every ordered pair of distinct variables,
so the AC-3 invariant holds at the start of the default run. -/
theorem allArcs_inv (cw : Crossword) (d : Domains) : AcInv cw d (allArcs cw) := by
  intro x hx y hy hxy
  left
  unfold allArcs
  rw [List.mem_flatMap]
  refine ⟨x, hx, List.mem_map.2 ⟨y, List.mem_filter.2 ⟨hy, ?_⟩, rfl⟩⟩
  simpa using fun h : y = x => hxy h.symm

/-- Main AC-3 soundness argument: a run that returns true turns the worklist
invariant into arc consistency of every pair of distinct variables. -/
theorem ac3run_true_arcConsistent (cw : Crossword) (hsym : OverlapSym cw) :
    ∀ (f : Nat) (d : Domains) (arcs : List (Variable × Variable)) (d' : Domains),
      AcInv cw d arcs → ac3run cw f d arcs = .ok (true, d') →
      ∀ x ∈ cw.vars, ∀ y ∈ cw.vars, x ≠ y → arcConsistent cw d' x y := by
  intro f
  induction f with
  | zero => intro d arcs d' _ h; simp [ac3run] at h
  | succ f ih =>
      intro d arcs d' hinv h x hx y hy hxy
      match arcs with
      | [] =>
          simp only [ac3run, Except.ok.injEq, Prod.mk.injEq] at h
          rcases hinv x hx y hy hxy with hmem | hac
          · simp at hmem
          · exact h.2 ▸ hac
      | (x0, y0) :: rest =>
          simp only [ac3run] at h
          split at h
          · rename_i hchanged
            split at h
            · simp at h
            · rename_i hlen
              refine ih _ _ _ ?_ h x hx y hy hxy
              intro p hp q hq hpq
              rcases hinv p hp q hq hpq with hmem | hac
              · rcases List.mem_cons.1 hmem with heq | hrest
                · right
                  have hpq0 : p = x0 ∧ q = y0 := Prod.mk.injEq .. ▸ heq
                  obtain ⟨hp0, hq0⟩ := hpq0
                  subst hp0; subst hq0
                  intro i j hov wx hwx
                  obtain ⟨wy, hwy, hagree⟩ :=
                    reviseD_support cw d p q i j hov wx hwx
                  refine ⟨wy, ?_, hagree⟩
                  rw [(reviseD_frame cw d p q).1 q (fun hqp => hpq hqp.symm)]
                  exact hwy
                · left
                  exact foldl_enqueue_mem x0 y0 (neighbors cw x0) rest (p, q) hrest
              · by_cases hqx : q = x0
                · subst hqx
                  by_cases hpy : p = y0
                  · subst hpy
                    right
                    intro i j hov wx hwx
                    rw [(reviseD_frame cw d q p).1 p hpq] at hwx
                    obtain ⟨u, hu, hagree⟩ := hac i j hov wx hwx
                    have hov2 : cw.overlaps q p = some (j, i) := hsym p q i j hov
                    refine ⟨u, reviseD_keep cw d q p j i hov2 u hu ⟨wx, hwx, hagree.symm⟩, hagree⟩
                  · cases hovpx : cw.overlaps p q with
                    | none =>
                        right
                        intro i j hov
                        rw [hovpx] at hov
                        cases hov
                    | some ij =>
                        left
                        obtain ⟨i0, j0⟩ := ij
                        refine foldl_enqueue_mem_new q y0 (neighbors cw q) rest p ?_ hpy
                        refine List.mem_filter.2 ⟨hp, ?_⟩
                        have : (cw.overlaps q p).isSome := by
                          rw [hsym p q i0 j0 hovpx]; rfl
                        simp [this, hpq]
                · right
                  intro i j hov wx hwx
                  have hwx' : wx ∈ domGet d p := reviseD_subset cw d x0 y0 p hwx
                  obtain ⟨wy, hwy, hagree⟩ := hac i j hov wx hwx'
                  refine ⟨wy, ?_, hagree⟩
                  rw [(reviseD_frame cw d x0 y0).1 q hqx]
                  exact hwy
          · rename_i hchanged
            refine ih _ _ _ ?_ h x hx y hy hxy
            have hpoint : ∀ v, domGet d v = domGet (reviseD cw d x0 y0).2 v :=
              fun v => (reviseD_unchanged cw d x0 y0 (by simpa using hchanged) v).symm
            intro p hp q hq hpq
            rcases hinv p hp q hq hpq with hmem | hac
            · rcases List.mem_cons.1 hmem with heq | hrest
              · right
                have hpq0 : p = x0 ∧ q = y0 := Prod.mk.injEq .. ▸ heq
                obtain ⟨hp0, hq0⟩ := hpq0
                subst hp0; subst hq0
                refine arcConsistent_congr cw d _ hpoint p q ?_
                intro i j hov wx hwx
                exact reviseD_false_supported cw d p q i j hov
                  (by simpa using hchanged) wx hwx
              · left; exact hrest
            · right
              exact arcConsistent_congr cw d _ hpoint p q hac

/-- C5 counterexample: on `cwE` the default `ac3` invocation returns true even
though `vX`'s (pre-existing) empty domain is still empty — refuting the
claim that whenever `ac3` returns true every variable's domain is
non-empty. -/
theorem ac3_true_with_empty_domain_cex :
    ac3run cwE 9 domE (allArcs cwE) = .ok (true, domE)
    ∧ vX ∈ cwE.vars ∧ domGet domE vX = [] := by
  refine ⟨rfl, ?_, rfl⟩
  simp [cwE]

/-- C5 as amended: when `ac3` returns true no domain was emptied by the run
(an empty domain afterwards was already empty beforehand); for the default
invocation with the full initial arc list every pair of distinct variables
with a defined overlap is arc-consistent afterwards; and whenever a revision
empties some variable's domain the run returns false at once. -/
theorem ac3_spec (cw : Crossword) (g : Nat) (d : Domains) :
    (∀ arcs d', ac3run cw g d arcs = .ok (true, d') →
      ∀ v, domGet d' v = [] → domGet d v = [])
    ∧ (OverlapSym cw → ∀ d', ac3run cw g d (allArcs cw) = .ok (true, d') →
        ∀ x ∈ cw.vars, ∀ y ∈ cw.vars, x ≠ y → ∀ i j,
          cw.overlaps x y = some (i, j) →
          ∀ wx ∈ domGet d' x, ∃ wy ∈ domGet d' y, charAt wx i = charAt wy j)
    ∧ (∀ x y rest, (reviseD cw d x y).1 = true →
        domGet (reviseD cw d x y).2 x = [] →
        ac3run cw (g + 1) d ((x, y) :: rest) = .ok (false, (reviseD cw d x y).2)) := by
  refine ⟨?_, ?_, ?_⟩
  · intro arcs d' h v hv
    exact ac3run_true_no_new_empty cw g d arcs d' h v hv
  · intro hsym d' h x hx y hy hxy i j hov wx hwx
    exact ac3run_true_arcConsistent cw hsym g d (allArcs cw) d'
      (allArcs_inv cw d) h x hx y hy hxy i j hov wx hwx
  · intro x y rest hchanged hempty
    simp [ac3run, hchanged, hempty]

/-- Symmetry of the concrete overlap table `ovW`. -/
theorem ovW_sym : OverlapSym cwW := by
  intro x y i j h
  have h' : ovW x y = some (i, j) := h
  unfold ovW at h'
  split_ifs at h' with h1 h2 h3 h4
  · obtain ⟨hx, hy⟩ := h1
    subst hx; subst hy
    cases h'
    decide
  · obtain ⟨hx, hy⟩ := h2
    subst hx; subst hy
    cases h'
    decide
  · obtain ⟨hx, hy⟩ := h3
    subst hx; subst hy
    cases h'
    decide
  · obtain ⟨hx, hy⟩ := h4
    subst hx; subst hy
    cases h'
    decide

/-- Witness for C5 (amended) on `cwW` and `domW`: the default run returns
true, the overlapping pair `vX`, `vY` is arc-consistent afterwards, and the
revision of the ghost pair, which does empty `vG1`'s domain, makes the run
that starts with that arc return false immediately. -/
theorem ac3_spec_witness :
    (domGet domW vX = [] → domGet domW vX = [])
    ∧ (∀ wx ∈ domGet domW vX, ∃ wy ∈ domGet domW vY, charAt wx 0 = charAt wy 0)
    ∧ ac3run cwW (9 + 1) domW ((vG1, vG2) :: []) =
        .ok (false, (reviseD cwW domW vG1 vG2).2) := by
  refine ⟨(ac3_spec cwW 9 domW).1 (allArcs cwW) domW rfl vX, ?_, ?_⟩
  · intro wx hwx
    exact (ac3_spec cwW 9 domW).2.1 ovW_sym domW rfl vX (by simp [cwW]) vY
      (by simp [cwW]) (by decide) 0 0 (by decide) wx hwx
  · exact (ac3_spec cwW 9 domW).2.2 vG1 vG2 [] (by decide) (by decide)

/-! ## Lemmas about the backtracking search -/

/-- A head of a filtered list is a member satisfying the filter. -/
theorem head?_filter_mem {α : Type} (l : List α) (p : α → Bool) (x : α)
    (h : (l.filter p).head? = some x) : x ∈ l ∧ p x = true :=
  List.mem_filter.1 (List.mem_of_mem_head? (Option.mem_def.2 h))

/-- A selected variable is a crossword variable with no binding yet. -/
theorem selectUnassigned_spec (cw : Crossword) (d : Domains) (a : Assignment)
    (var : Variable) (h : selectUnassigned cw d a = some var) :
    var ∈ cw.vars ∧ hasKey a var = false := by
  unfold selectUnassigned at h
  cases hu : cw.vars.filter (fun v => !(hasKey a v)) with
  | nil => rw [hu] at h; cases h
  | cons u us =>
      rw [hu] at h
      simp only at h
      have hvar : var ∈ u :: us := by
        split at h
        · exact (head?_filter_mem _ _ _ h).1
        · exact ((head?_filter_mem _ _ _ h).1 |> fun hmem =>
            (List.mem_filter.1 hmem).1)
      rw [← hu] at hvar
      have := List.mem_filter.1 hvar
      exact ⟨this.1, by simpa using this.2⟩

/-- Every exit of the value loop that exhausts its candidates leaves the
domain store exactly as it was when the loop started: each failed tentative
branch restored the snapshot taken before it narrowed the store. -/
theorem backtrackLoop_exhausted_d (cw : Crossword)
    (bt : Domains → Assignment → Except Err (Option Assignment × Domains × Assignment))
    (g : Nat) (var : Variable) :
    ∀ (vals : List Word) (d : Domains) (a : Assignment) (d' : Domains)
      (a' : Assignment),
      backtrackLoop cw bt g d a var vals = .ok (.exhausted d' a') → d' = d := by
  intro vals
  induction vals with
  | nil =>
      intro d a d' a' h
      simp only [backtrackLoop, Except.ok.injEq, LoopRes.exhausted.injEq] at h
      exact h.1.symm
  | cons v rest ih =>
      intro d a d' a' h
      simp only [backtrackLoop] at h
      split at h
      · split at h
        · cases h
        · split at h
          · cases h
          · simp only [Except.ok.injEq] at h
            cases h
          · exact ih _ _ _ _ h
      · exact ih _ _ _ _ h

/-- Through the value loop, the tried variable's binding is always the last
entry: each iteration overwrites it in place and a failed recursive call
hands back the assignment it received. -/
theorem backtrackLoop_exhausted_a (cw : Crossword)
    (bt : Domains → Assignment → Except Err (Option Assignment × Domains × Assignment))
    (g : Nat) (var : Variable)
    (hbt : ∀ d0 a0 d1 a1, bt d0 a0 = .ok (none, d1, a1) → a1 = a0) :
    ∀ (vals : List Word) (d : Domains) (a : Assignment) (w0 : Word)
      (d' : Domains) (a' : Assignment), hasKey a var = false →
      backtrackLoop cw bt g d (a ++ [(var, w0)]) var vals = .ok (.exhausted d' a') →
      ∃ wl, a' = a ++ [(var, wl)] := by
  intro vals
  induction vals with
  | nil =>
      intro d a w0 d' a' hvar h
      simp only [backtrackLoop, Except.ok.injEq, LoopRes.exhausted.injEq] at h
      exact ⟨w0, h.2.symm⟩
  | cons v rest ih =>
      intro d a w0 d' a' hvar h
      simp only [backtrackLoop, insertA_last a var w0 v hvar] at h
      split at h
      · split at h
        · cases h
        · split at h
          · cases h
          · simp only [Except.ok.injEq] at h
            cases h
          · rename_i heq
            rw [hbt _ _ _ _ heq] at h
            exact ih _ _ _ _ _ hvar h
      · exact ih _ _ _ _ _ hvar h

/-- Shape of the assignment at loop exit: unchanged when there was no
candidate, else the entry assignment extended by the binding of the last
tried value. -/
theorem backtrackLoop_exhausted_shape (cw : Crossword)
    (bt : Domains → Assignment → Except Err (Option Assignment × Domains × Assignment))
    (g : Nat) (var : Variable)
    (hbt : ∀ d0 a0 d1 a1, bt d0 a0 = .ok (none, d1, a1) → a1 = a0) :
    ∀ (vals : List Word) (d : Domains) (a : Assignment) (d' : Domains)
      (a' : Assignment), hasKey a var = false →
      backtrackLoop cw bt g d a var vals = .ok (.exhausted d' a') →
      (vals = [] ∧ a' = a) ∨ ∃ wl, a' = a ++ [(var, wl)] := by
  intro vals
  match vals with
  | [] =>
      intro d a d' a' hvar h
      simp only [backtrackLoop, Except.ok.injEq, LoopRes.exhausted.injEq] at h
      exact Or.inl ⟨rfl, h.2.symm⟩
  | v :: rest =>
      intro d a d' a' hvar h
      right
      simp only [backtrackLoop, insertA_of_not_key a var v hvar] at h
      split at h
      · split at h
        · cases h
        · split at h
          · cases h
          · simp only [Except.ok.injEq] at h
            cases h
          · rename_i heq
            rw [hbt _ _ _ _ heq] at h
            exact backtrackLoop_exhausted_a cw bt g var hbt rest d a v d' a' hvar h
      · exact backtrackLoop_exhausted_a cw bt g var hbt rest d a v d' a' hvar h

/-- A failed `backtrack` call restores both the domain store and the
assignment to their entry state. -/
theorem backtrackModel_none_restore (cw : Crossword) :
    ∀ (f g : Nat) (d : Domains) (a : Assignment) (d' : Domains)
      (a' : Assignment), backtrackModel cw f g d a = .ok (none, d', a') →
      d' = d ∧ a' = a := by
  intro f
  induction f with
  | zero => intro g d a d' a' h; simp [backtrackModel] at h
  | succ f ih =>
      intro g d a d' a' h
      simp only [backtrackModel] at h
      split at h
      · simp at h
      · split at h
        · cases h
        · rename_i var hsel
          split at h
          · cases h
          · simp at h
          · rename_i d1 a1 hloop
            split at h
            · cases h
            · rename_i a2 herase
              simp only [Except.ok.injEq, Prod.mk.injEq] at h
              obtain ⟨-, hd, ha⟩ := h
              have hvar := (selectUnassigned_spec cw d a var hsel).2
              have hd1 : d1 = d :=
                backtrackLoop_exhausted_d cw _ g var _ d a d1 a1 hloop
              have hbt : ∀ d0 a0 dd aa,
                  backtrackModel cw f g d0 a0 = .ok (none, dd, aa) → aa = a0 :=
                fun d0 a0 dd aa hh => (ih g d0 a0 dd aa hh).2
              rcases backtrackLoop_exhausted_shape cw _ g var hbt _ d a d1 a1
                hvar hloop with ⟨-, ha1⟩ | ⟨wl, ha1⟩
              · rw [ha1, eraseA_none a var hvar] at herase
                cases herase
              · rw [ha1, eraseA_last a var wl hvar] at herase
                cases herase
                exact ⟨by rw [← hd, hd1], by rw [← ha]⟩

/-- C7: after any failed tentative branch the domain store is exactly its
pre-branch snapshot: a loop that exhausts its candidate values (every branch
having been rejected by `consistent`, or undone after propagation and a
failed recursive call) hands back the store it started from, and likewise a
whole failed `backtrack` call leaves `self.domains` exactly as it found
it. -/
theorem domains_restored_after_failure (cw : Crossword) (f g : Nat)
    (d : Domains) (a : Assignment) (var : Variable) (vals : List Word)
    (d1 : Domains) (a1 : Assignment) (d2 : Domains) (a2 : Assignment) :
    (backtrackLoop cw (backtrackModel cw f g) g d a var vals =
        .ok (.exhausted d1 a1) → d1 = d)
    ∧ (backtrackModel cw f g d a = .ok (none, d2, a2) → d2 = d) :=
  ⟨fun h => backtrackLoop_exhausted_d cw _ g var vals d a d1 a1 h,
   fun h => (backtrackModel_none_restore cw f g d a d2 a2 h).1⟩

/-- Witness for C7 on `cwH`: a failing loop run and a failing `backtrack` run
both hand back the store `domH` they started from. -/
theorem domains_restored_after_failure_witness : domH = domH ∧ domH = domH :=
  ⟨(domains_restored_after_failure cwH 2 9 domH [] vX [wAB] domH
      [(vX, wAB)] domH []).1 rfl,
   (domains_restored_after_failure cwH 3 9 domH [] vX [wAB] domH
      [(vX, wAB)] domH []).2 rfl⟩

/-- C6 counterexample: on `cwB`'s empty domain no candidate value is tried,
`var`'s binding is indeed absent at the final `del assignment[var]` — and
precisely because of that the deletion is not a safe no-op: it raises
`KeyError`, so the whole call aborts instead of reporting failure upward. -/
theorem final_del_can_fail_cex :
    backtrackModel cwB 2 9 domB [] = .error .keyError := rfl

/-- C6 as amended: on the failure path `var`'s binding is absent only when no
candidate value was tried, and then the final `del assignment[var]` raises
`KeyError`; when at least one candidate was tried the binding is present (the
last tried value, sitting at the end) and the deletion removes it, restoring
the entry assignment, after which failure is reported upward. -/
theorem final_del_behaviour (cw : Crossword) (f g : Nat) (d : Domains)
    (a : Assignment) (var : Variable) (vals : List Word) (d' : Domains)
    (a' : Assignment) (hvar : hasKey a var = false)
    (h : backtrackLoop cw (backtrackModel cw f g) g d a var vals =
      .ok (.exhausted d' a')) :
    (vals = [] → a' = a ∧ eraseA a' var = none)
    ∧ (vals ≠ [] → ∃ wl, a' = a ++ [(var, wl)] ∧ eraseA a' var = some a) := by
  have hbt : ∀ d0 a0 dd aa,
      backtrackModel cw f g d0 a0 = .ok (none, dd, aa) → aa = a0 :=
    fun d0 a0 dd aa hh => (backtrackModel_none_restore cw f g d0 a0 dd aa hh).2
  constructor
  · intro hnil
    subst hnil
    simp only [backtrackLoop, Except.ok.injEq, LoopRes.exhausted.injEq] at h
    refine ⟨h.2.symm, ?_⟩
    rw [← h.2]
    exact eraseA_none a var hvar
  · intro hne
    rcases backtrackLoop_exhausted_shape cw _ g var hbt vals d a d' a'
      hvar h with ⟨hnil, -⟩ | ⟨wl, ha⟩
    · exact absurd hnil hne
    · exact ⟨wl, ha, by rw [ha]; exact eraseA_last a var wl hvar⟩

/-- Witness for C6 (amended) on `cwB`: the loop over the empty candidate list
exits with the assignment unchanged and the deletion fails. -/
theorem final_del_behaviour_witness :
    (([] : List Word) = [] → ([] : Assignment) = [] ∧ eraseA [] vX3 = none)
    ∧ (([] : List Word) ≠ [] →
        ∃ wl, ([] : Assignment) = [] ++ [(vX3, wl)] ∧ eraseA [] vX3 = some []) :=
  final_del_behaviour cwB 1 9 domB [] vX3 [] domB [] rfl rfl

/-- Every solution the value loop bubbles up was produced by a recursive call
on an assignment that had just passed the `consistent` check. -/
theorem backtrackLoop_found_sound (cw : Crossword)
    (bt : Domains → Assignment → Except Err (Option Assignment × Domains × Assignment))
    (g : Nat) (var : Variable)
    (hbt : ∀ d0 a0 res d1 a1, consistentA cw a0 = true →
      bt d0 a0 = .ok (some res, d1, a1) →
      consistentA cw res = true ∧ assignmentComplete cw res = true) :
    ∀ (vals : List Word) (d : Domains) (a : Assignment) (res : Assignment)
      (d' : Domains) (a' : Assignment),
      backtrackLoop cw bt g d a var vals = .ok (.found res d' a') →
      consistentA cw res = true ∧ assignmentComplete cw res = true := by
  intro vals
  induction vals with
  | nil => intro d a res d' a' h; simp [backtrackLoop] at h
  | cons v rest ih =>
      intro d a res d' a' h
      simp only [backtrackLoop] at h
      split at h
      · rename_i hcons
        split at h
        · cases h
        · split at h
          · cases h
          · rename_i res2 d3 a3 heq
            simp only [Except.ok.injEq, LoopRes.found.injEq] at h
            obtain ⟨hres, -, -⟩ := h
            rw [← hres]
            exact hbt _ _ _ _ _ hcons heq
          · exact ih _ _ _ _ _ h
      · exact ih _ _ _ _ _ h

/-- A solution returned by `backtrack` on a consistent entry assignment is
consistent and complete: every returned assignment was either the complete
entry assignment itself or was vetted by `consistent` just before the
recursive call that found it complete. -/
theorem backtrackModel_some_sound (cw : Crossword) :
    ∀ (f g : Nat) (d : Domains) (a : Assignment) (res : Assignment)
      (d' : Domains) (a' : Assignment), consistentA cw a = true →
      backtrackModel cw f g d a = .ok (some res, d', a') →
      consistentA cw res = true ∧ assignmentComplete cw res = true := by
  intro f
  induction f with
  | zero => intro g d a res d' a' _ h; simp [backtrackModel] at h
  | succ f ih =>
      intro g d a res d' a' hcons h
      simp only [backtrackModel] at h
      split at h
      · rename_i hcomp
        simp only [Except.ok.injEq, Prod.mk.injEq, Option.some.injEq] at h
        obtain ⟨hres, -, -⟩ := h
        rw [← hres]
        exact ⟨hcons, hcomp⟩
      · split at h
        · cases h
        · rename_i var hsel
          split at h
          · cases h
          · rename_i res2 d1 a1 hloop
            simp only [Except.ok.injEq, Prod.mk.injEq, Option.some.injEq] at h
            obtain ⟨hres, -, -⟩ := h
            rw [← hres]
            exact backtrackLoop_found_sound cw _ g var
              (fun d0 a0 r dd aa hc hh => ih g d0 a0 r dd aa hc hh)
              _ d a res2 d1 a1 hloop
          · split at h
            · cases h
            · simp at h

/-- The empty assignment is consistent. -/
theorem consistentA_nil (cw : Crossword) : consistentA cw [] = true := rfl

/-- Semantic content of a passing `consistent` check: distinct words,
matching lengths, agreement at every defined overlap. -/
theorem consistentA_spec (cw : Crossword) (a : Assignment)
    (h : consistentA cw a = true) :
    (a.map Prod.snd).Nodup
    ∧ (∀ p ∈ a, p.1.length = wordLen p.2)
    ∧ (∀ p ∈ a, ∀ q ∈ a, p.1 ≠ q.1 → ∀ i j,
        cw.overlaps p.1 q.1 = some (i, j) → charAt p.2 i = charAt q.2 j) := by
  unfold consistentA at h
  rw [Bool.and_eq_true] at h
  obtain ⟨h1, h2⟩ := h
  refine ⟨?_, ?_, ?_⟩
  · have hlen : a.length = (a.map Prod.snd).dedup.length := by simpa using h1
    have hsub := List.dedup_sublist (a.map Prod.snd)
    have hl2 : (a.map Prod.snd).dedup.length = (a.map Prod.snd).length := by
      rw [← hlen, List.length_map]
    have hde := hsub.eq_of_length hl2
    rw [← hde]
    exact List.nodup_dedup _
  · intro p hp
    rw [List.all_eq_true] at h2
    have h3 := h2 p hp
    rw [Bool.and_eq_true] at h3
    simpa using h3.1
  · intro p hp q hq hne i j hov
    rw [List.all_eq_true] at h2
    have h3 := h2 p hp
    rw [Bool.and_eq_true] at h3
    have h4 := h3.2
    rw [List.all_eq_true] at h4
    have h5 := h4 q hq
    rw [if_neg (by simpa using hne)] at h5
    rw [hov] at h5
    simpa using h5

/-- Semantic content of a passing completeness check. -/
theorem assignmentComplete_spec (cw : Crossword) (a : Assignment)
    (h : assignmentComplete cw a = true) :
    ∀ v ∈ cw.vars, ∃ w, (v, w) ∈ a := by
  unfold assignmentComplete at h
  rw [List.all_eq_true] at h
  intro v hv
  have h1 := h v hv
  unfold hasKey at h1
  rw [List.any_eq_true] at h1
  obtain ⟨p, hp, hpv⟩ := h1
  have hp1 : p.1 = v := by simpa using hpv
  exact ⟨p.2, by rw [← hp1]; simpa using hp⟩

/-- C1: every assignment `solve` returns (through `backtrack`) is complete
and constraint-satisfying: the bound words are pairwise distinct, each
variable's word has the variable's declared length, every pair of bound
variables with a defined overlap agrees at the overlap offsets, and every
crossword variable is bound. -/
theorem solve_valid (f g : Nat) (cw : Crossword) (res : Assignment)
    (d' : Domains) (a' : Assignment)
    (h : solveModel f g cw = .ok (some res, d', a')) :
    (res.map Prod.snd).Nodup
    ∧ (∀ p ∈ res, p.1.length = wordLen p.2)
    ∧ (∀ p ∈ res, ∀ q ∈ res, p.1 ≠ q.1 → ∀ i j,
        cw.overlaps p.1 q.1 = some (i, j) → charAt p.2 i = charAt q.2 j)
    ∧ (∀ v ∈ cw.vars, ∃ w, (v, w) ∈ res) := by
  unfold solveModel at h
  split at h
  · cases h
  · have hs := backtrackModel_some_sound cw f g _ [] res d' a'
      (consistentA_nil cw) h
    obtain ⟨hcons, hcomp⟩ := hs
    have hu := consistentA_spec cw res hcons
    exact ⟨hu.1, hu.2.1, hu.2.2, assignmentComplete_spec cw res hcomp⟩

/-- Witness for C1: `solve` succeeds on `cwA` and the returned assignment
satisfies all four conditions. -/
theorem solve_valid_witness :
    (asgA.map Prod.snd).Nodup
    ∧ (∀ p ∈ asgA, p.1.length = wordLen p.2)
    ∧ (∀ p ∈ asgA, ∀ q ∈ asgA, p.1 ≠ q.1 → ∀ i j,
        cwA.overlaps p.1 q.1 = some (i, j) → charAt p.2 i = charAt q.2 j)
    ∧ (∀ v ∈ cwA.vars, ∃ w, (v, w) ∈ asgA) :=
  solve_valid 3 5 cwA asgA domA asgA rfl

/-- C2: on the spec's scenario — a length-3 variable whose domain
`enforce_node_consistency` empties — `solve` does not return the no-solution
value `None`: the final `del assignment[var]` in `backtrack` raises
`KeyError` (the variable was never bound), contradicting `backtrack`'s own
docstring "If no assignment is possible, return None". -/
theorem solve_raises_keyerror_on_empty_domain :
    solveModel 3 5 cwB = .error .keyError := rfl

/-- C3: `order_domain_values` sorts with `reverse=True`, so the candidate
ruling out the most values among unassigned neighbors comes first — on
`cwC`, "cd" (elimination count 2) is returned before "ab" (count 1) —
contradicting the method's own docstring, which asks for the value ruling
out the fewest values first. -/
theorem order_domain_values_most_constraining_first :
    orderDomainValues cwC domC vX [] = [wCD, wAB]
    ∧ elimCount cwC domC vX [] wAB = 1
    ∧ elimCount cwC domC vX [] wCD = 2
    ∧ elimCount cwC domC vX [] wAB < elimCount cwC domC vX [] wCD :=
  ⟨rfl, rfl, rfl, by decide⟩

/-- C4: `backtrack` discards `ac3`'s return value.  On `cwD` the only
tentative binding passes `consistent`, the narrowed re-propagation returns
false with `vY`'s domain emptied — and instead of restoring the snapshot and
moving to the next candidate, the code recurses on the infeasible branch,
where the recursive call selects `vY`, finds no candidate, and crashes with
`KeyError` at its final `del assignment[var]`.  This contradicts
`backtrack`'s docstring promise to return `None` when no assignment is
possible. -/
theorem backtrack_recurses_after_failed_ac3 :
    ac3run cwD 9 (domSet domD vX [wAB]) (buildArcs cwD (insertA [] vX wAB)) =
      .ok (false, domD2)
    ∧ backtrackModel cwD 3 9 domD [] = .error .keyError :=
  ⟨rfl, rfl⟩
